import Mathlib

/-!
# Verification of `romantext_to_orbital.py` and `docs/ribbon_plot.py`

A shallow embedding of the two Python programs of this repository, followed
by theorems checking the repository specification against the embedded code.

Modelling conventions:
* Python `float` beat/duration arithmetic is modelled by `ℚ`; `round(x, n)`
  (Python's round-half-even on exact values) is modelled by `roundTo`.
* Python functions that can raise at runtime (`tonicize` dereferences
  `key.semitone()` which is `None` for an unparsable root) return `Option`;
  `none` models the raised `TypeError`.
* The JSON output's "emit an `int` when the float is whole" shaping is
  value-preserving, so JSON numbers are modelled by their rational value.
* Python strings are Lean `String`s; `s[i]` accesses use `List Char`.
-/

namespace TheMusic

/-- Python's `round` to an integer: round-half-to-even on an exact rational. -/
def roundHE (q : ℚ) : ℤ :=
  let f := ⌊q⌋
  let r := q - f
  if r < 1/2 then f
  else if 1/2 < r then f + 1
  else if 2 ∣ f then f else f + 1

/-- Python's `round(q, n)`: round to `n` decimal digits, half-to-even. -/
def roundTo (n : ℕ) (q : ℚ) : ℚ :=
  (roundHE (q * 10 ^ n) : ℚ) / 10 ^ n

/-- Python's `abs` on an exact rational. -/
def ratAbs (q : ℚ) : ℚ := if q < 0 then -q else q

/-- Python's `repr` of a simple (quote-free) string, as used in f-string `{s!r}`. -/
def pyRepr (s : String) : String := "\x27" ++ s ++ "\x27"

/-- An ASCII whitespace character (the whitespace Python's `str.strip`
removes, restricted to ASCII). -/
def pySpace (c : Char) : Bool :=
  c = ' ' ∨ c = '\t' ∨ c = '\n' ∨ c = '\r' ∨ c = '\x0b' ∨ c = '\x0c'

/-- Python's `str.strip()` on the character list of a string. -/
def pyStrip (cs : List Char) : List Char :=
  ((cs.dropWhile pySpace).reverse.dropWhile pySpace).reverse

/-- Python's `str.startswith(pre)`: `hasPrefixC pre cs`. -/
def hasPrefixC : List Char → List Char → Bool
  | [], _ => true
  | _ :: _, [] => false
  | p :: ps, c :: cs => p = c && hasPrefixC ps cs

/-! ## Pitch helpers (`romantext_to_orbital.py`, lines 41-65) -/

/-- Dict `PC_TO_SEMI`: natural pitch letter → semitone. `none` models a missing key. -/
def PC_TO_SEMI : Char → Option ℤ
  | 'C' => some 0
  | 'D' => some 2
  | 'E' => some 4
  | 'F' => some 5
  | 'G' => some 7
  | 'A' => some 9
  | 'B' => some 11
  | _   => none

def MAJOR_INTERVALS : List ℤ := [0, 2, 4, 5, 7, 9, 11]

def MINOR_INTERVALS : List ℤ := [0, 2, 3, 5, 7, 8, 10]

/-- Flat-preferring semitone → pitch-class spelling table. -/
def SEMI_TO_PC : List String :=
  ["C", "Db", "D", "Eb", "E", "F", "F#", "G", "Ab", "A", "Bb", "B"]

/-- Dict `NUMERAL_TO_DEGREE` (on character lists); `none` models a missing key. -/
def NUMERAL_TO_DEGREE : List Char → Option ℕ
  | ['I'] => some 0
  | ['I', 'I'] => some 1
  | ['I', 'I', 'I'] => some 2
  | ['I', 'V'] => some 3
  | ['V'] => some 4
  | ['V', 'I'] => some 5
  | ['V', 'I', 'I'] => some 6
  | _ => none

/-- Function `parse_pitch_class`: letter base semitone ± accidental count, mod 12. -/
def parse_pitch_class (s : String) : Option ℤ :=
  match pyStrip s.data with
  | [] => none
  | c :: rest =>
    match PC_TO_SEMI c.toUpper with
    | none => none
    | some semi =>
      some ((rest.foldl
        (fun a ch => if ch = '#' then a + 1 else if ch = 'b' then a - 1 else a)
        semi) % 12)

/-- Function `scale_semitones`: the 7-note diatonic scale on `root_semi`, mod 12. -/
def scale_semitones (root_semi : ℤ) (scale : String) : List ℤ :=
  (if scale = "major" then MAJOR_INTERVALS else MINOR_INTERVALS).map
    (fun i => (root_semi + i) % 12)

/-! ## Data types (`romantext_to_orbital.py`, lines 72-90) -/

/-- Dataclass `KeyState`: a root spelling and a scale (`"major"`/`"minor"`). -/
structure KeyState where
  root : String
  scale : String
  deriving DecidableEq, Repr, Inhabited

/-- Method `KeyState.semitone`; `none` models Python's `None`. -/
def KeyState.semitone (k : KeyState) : Option ℤ := parse_pitch_class k.root

/-- Dataclass `RawEvent`: one parsed chord event. -/
structure RawEvent where
  beat : ℚ
  measure : ℤ
  roman : String
  key : KeyState
  deriving DecidableEq, Repr, Inhabited

/-- Function `parse_key_str`: parse a RomanText key token like `C`, `Bb`, `f#`. -/
def parse_key_str (s : String) : Option KeyState :=
  match pyStrip s.data with
  | [] => none
  | c :: rest =>
    if (PC_TO_SEMI c.toUpper).isSome then
      some { root := String.mk (c.toUpper :: rest)
             scale := if c.isUpper then "major" else "minor" }
    else none

/-! ## Applied chord resolution (`romantext_to_orbital.py`, lines 353-435) -/

/-- Function `is_supported_roman`: can the chord symbol be expressed via `setRoman`? -/
def is_supported_roman (s : String) : Bool :=
  if s.data = [] then false
  else
    -- strip bracket annotations: `s[:s.index('[')].strip()`
    let t := if s.data.contains '[' then
               pyStrip (s.data.takeWhile (fun c => c ≠ '['))
             else s.data
    match t with
    | [] => false
    | c :: rest =>
      if hasPrefixC "N".data t then t = "N".data ∨ t = "N6".data
      else if hasPrefixC "It".data t ∨ hasPrefixC "Ger".data t ∨
          hasPrefixC "Fr".data t then
        t ∈ ["It6".data, "Ger6/5".data, "Ger7".data, "Fr4/3".data, "Fr6".data]
      else if c = 'b' ∨ c = '#' then
        match rest with
        | [] => false
        | d :: _ => d.toUpper = 'I' ∨ d.toUpper = 'V'
      else c ∈ (['I', 'i', 'V', 'v'] : List Char)

/-- Function `_skip_reason`: human-readable reason a chord symbol is unsupported. -/
def _skip_reason (s : String) : String :=
  if hasPrefixC "N".data s.data ∧ s ∉ (["N", "N6"] : List String) then
    "extended Neapolitan " ++ pyRepr s ++ " (only N and N6 are supported)"
  else if (hasPrefixC "It".data s.data ∨ hasPrefixC "Ger".data s.data ∨
      hasPrefixC "Fr".data s.data) ∧
      s ∉ (["It6", "Ger6/5", "Ger7", "Fr4/3", "Fr6"] : List String) then
    "unrecognized augmented-sixth variant " ++ pyRepr s
  else
    "unrecognized chord symbol " ++ pyRepr s

/-- Function `tonicize`: key built on a scale degree of `key`.  `none` models the
`TypeError` Python raises when `key.semitone()` is `None` (unparsable root). -/
def tonicize (key : KeyState) (target_roman : String) : Option KeyState :=
  -- strip one leading b/# prefix; offset applied to the final pitch class
  let po : ℤ × List Char :=
    match target_roman.data with
    | 'b' :: rest => (-1, rest)
    | '#' :: rest => (1, rest)
    | l => (0, l)
  let semitone_offset := po.1
  match po.2 with
  | [] => some key
  | c :: _ =>
    -- scale type determined by the case of the numeral letter
    let target_scale := if c.isUpper then "major" else "minor"
    -- leading run of I/V characters of the upper-cased target
    let numeral := (po.2.map Char.toUpper).takeWhile
      (fun ch => ch = 'I' ∨ ch = 'V')
    match NUMERAL_TO_DEGREE numeral with
    | none => some key
    | some degree_idx =>
      match key.semitone with
      | none => none          -- Python: `None + i` raises TypeError
      | some root_semi =>
        let semis := scale_semitones root_semi key.scale
        if degree_idx < semis.length then
          let target_semi := ((semis.getD degree_idx 0 + semitone_offset) % 12)
          some { root := SEMI_TO_PC.getD target_semi.toNat "C"
                 scale := target_scale }
        else some key

/-- Characters that may start a valid applied-chord target after a `/`. -/
def slashTargets : List Char := ['I', 'i', 'V', 'v', 'b', '#']

/-- The source's right-to-left scan `for pos in range(len(roman)-1, 0, -1)`:
returns the first position `pos ∈ [1, start]` (scanning downward) such that
`roman[pos] = '/'`, `pos+1 < len`, and `roman[pos+1] ∈ slashTargets`. -/
def findSlashFrom (cs : List Char) : ℕ → Option ℕ
  | 0 => none
  | p + 1 =>
    if cs.getD (p + 1) ' ' = '/' ∧ p + 2 < cs.length then
      if cs.getD (p + 2) ' ' ∈ slashTargets then some (p + 1)
      else findSlashFrom cs p
    else findSlashFrom cs p

/-- Function `resolve_applied`: split an applied chord at the target delimiter and
tonicize the target; non-applied chords pass through unchanged. -/
def resolve_applied (roman : String) (key : KeyState) :
    Option (String × KeyState) :=
  let cs := roman.data
  match findSlashFrom cs (cs.length - 1) with
  | none => some (roman, key)
  | some idx =>
    (tonicize key (String.mk (cs.drop (idx + 1)))).map
      (fun k => (String.mk (cs.take idx), k))

/-! ## Orbital JSON builder (`romantext_to_orbital.py`, lines 442-603) -/

/-- One entry of the output `chordEvents` list. -/
inductive ChordEvent where
  | setKey (beat : ℚ) (root : String) (scale : String)
  | setRoman (beat : ℚ) (roman : String)
  | setChord (beat : ℚ) (degrees : List ℕ) (inversion : ℕ)
  deriving DecidableEq, Repr

/-- One entry of a track's `notes` list. -/
inductive NoteSpec where
  | currentChord (durationBeats : ℚ)
  | chordTone (index : ℕ) (durationBeats : ℚ)
  deriving DecidableEq, Repr

/-- One entry of the output `tracks` list. -/
structure Track where
  name : String
  presetFilename : String
  numVoices : ℤ
  octave : ℤ
  voicing : String
  sustainFraction : ℚ
  notes : List NoteSpec
  deriving DecidableEq, Repr

/-- The `scoreTracks` record of the output document. -/
structure ScoreTracks where
  bpm : ℚ
  totalBeats : ℚ
  loop : Bool
  keyRoot : String
  keyScale : String
  chordEvents : List ChordEvent
  tracks : List Track
  deriving DecidableEq, Repr

/-- The output document. -/
structure OrbitalDoc where
  name : String
  scoreTracks : ScoreTracks
  deriving DecidableEq, Repr

/-- One step of the same-beat deduplication loop (lines 462-467). -/
def dedupStep (acc : List RawEvent) (ev : RawEvent) : List RawEvent :=
  match acc.getLast? with
  | some l =>
    if ratAbs (l.beat - ev.beat) < 1 / 10 ^ 9 then acc.dropLast ++ [ev]
    else acc ++ [ev]
  | none => [ev]

/-- The same-beat deduplication pass ("pivot chord: keep last"). -/
def dedupEvents (events : List RawEvent) : List RawEvent :=
  events.foldl dedupStep []

/-- Body of the short-event filter loop (lines 494-499): walk the events
after the first, keeping each one whose gap to its successor in the
pre-filter list (or to `total_beats`, for the last) is at least `min_duration`. -/
def keepLongEnough (total_beats min_duration : ℚ) : List RawEvent → List RawEvent
  | [] => []
  | [e] => if min_duration ≤ total_beats - e.beat then [e] else []
  | e :: f :: rest =>
    (if min_duration ≤ f.beat - e.beat then [e] else []) ++
      keepLongEnough total_beats min_duration (f :: rest)

/-- The short-event filter (lines 491-500). -/
def dropShortEvents (total_beats min_duration : ℚ) (l : List RawEvent) :
    List RawEvent :=
  if 0 < min_duration ∧ 1 < l.length then
    match l with
    | [] => []
    | e :: rest => e :: keepLongEnough total_beats min_duration rest
  else l

/-- The chordEvents emission loop (lines 503-531): emit a `setKey` whenever
the resolved key changes, then always a `setRoman`; `none` propagates a
`tonicize` crash. -/
def emitChordEvents (prev_key : KeyState) : List RawEvent → Option (List ChordEvent)
  | [] => some []
  | ev :: rest => do
    let (chord_roman, resolved_key) ← resolve_applied ev.roman ev.key
    let tail ← emitChordEvents resolved_key rest
    let beat_val := roundTo 6 ev.beat
    some ((if resolved_key ≠ prev_key then
            [ChordEvent.setKey beat_val resolved_key.root resolved_key.scale]
           else []) ++
          ChordEvent.setRoman beat_val chord_roman :: tail)

/-- Insert into a sorted duplicate-free list, keeping it sorted and
duplicate-free: the model of Python's `sorted(set(...))`. -/
def insertDedup (x : ℚ) : List ℚ → List ℚ
  | [] => [x]
  | y :: ys =>
    if x < y then x :: y :: ys
    else if x = y then y :: ys
    else y :: insertDedup x ys

/-- Python `sorted(set(l))`: the sorted list of distinct members of `l`. -/
def sortedDistinct (l : List ℚ) : List ℚ := l.foldr insertDedup []

/-- List `event_beats` (lines 534-536): sorted distinct 6-decimal-rounded beats of
the surviving events, with the rounded total length as a sentinel end point. -/
def eventBeats (l : List RawEvent) (total_beats : ℚ) : List ℚ :=
  sortedDistinct (l.map (fun e => roundTo 6 e.beat) ++ [roundTo 6 total_beats])

/-- Consecutive gaps of `event_beats`, rounded, zero-length gaps dropped
(lines 538-543). -/
def durGaps : List ℚ → List ℚ
  | b0 :: b1 :: rest =>
    (let dur := roundTo 6 (b1 - b0)
     if 0 < dur then [dur] else []) ++ durGaps (b1 :: rest)
  | _ => []

/-- List `note_durations` including the single-duration fallback (lines 545-546). -/
def noteDurations (l : List RawEvent) (total_beats : ℚ) : List ℚ :=
  let ds := durGaps (eventBeats l total_beats)
  if ds = [] then [roundTo 6 total_beats] else ds

/-- The `tracks` list (lines 549-573). -/
def buildTracks (preset : String) (bass_preset : Option String) (octave : ℤ)
    (voices : ℤ) (sustain : ℚ) (note_durations : List ℚ) : List Track :=
  [{ name := "Chords"
     presetFilename := preset
     numVoices := voices
     octave := octave
     voicing := "open"
     sustainFraction := sustain
     notes := note_durations.map NoteSpec.currentChord }] ++
  (match bass_preset with
   | none => []
   | some bp =>
     [{ name := "Bass"
        presetFilename := bp
        numVoices := 2
        octave := octave - 1
        voicing := "closed"
        sustainFraction := 7 / 10
        notes := note_durations.map (NoteSpec.chordTone 0) }])

/-- Function `_empty_json` (lines 591-603): the fixed minimal document. -/
def _empty_json (title : String) (initial_key : KeyState) (bpm : ℚ) (loop : Bool)
    (total_beats : ℚ) : OrbitalDoc :=
  { name := title
    scoreTracks :=
    { bpm := bpm
      totalBeats := max (roundTo 1 total_beats) 4
      loop := loop
      keyRoot := initial_key.root
      keyScale := initial_key.scale
      chordEvents := [ChordEvent.setChord 0 [0, 2, 4] 0]
      tracks := [] } }

/-- Function `build_orbital_json` (lines 442-588). `none` models a `tonicize` crash. -/
def build_orbital_json (title : String) (initial_key : KeyState)
    (events : List RawEvent) (total_beats : ℚ) (bpm : ℚ) (loop : Bool)
    (preset : String) (bass_preset : Option String) (octave : ℤ) (voices : ℤ)
    (sustain : ℚ) (min_duration : ℚ) : Option OrbitalDoc :=
  if events = [] then
    some (_empty_json title initial_key bpm loop total_beats)
  else
    -- deduplicate events at the same beat
    let deduped := dedupEvents events
    -- shift so the first event is at beat 0
    let shift := deduped.headI.beat
    let st : List RawEvent × ℚ :=
      if 1 / 10 ^ 9 < ratAbs shift then
        (deduped.map (fun e => { e with beat := e.beat - shift }),
         total_beats - shift)
      else (deduped, total_beats)
    let total := max st.2 1
    -- filter unsupported chord types
    let supported := st.1.filter (fun e => is_supported_roman e.roman)
    if supported = [] then
      some (_empty_json title initial_key bpm loop total)
    else
      -- filter short chord events
      let survived := dropShortEvents total min_duration supported
      do
        let ces ← emitChordEvents initial_key survived
        some { name := title
               scoreTracks :=
               { bpm := bpm
                 totalBeats := roundTo 6 total
                 loop := loop
                 keyRoot := initial_key.root
                 keyScale := initial_key.scale
                 chordEvents := ces
                 tracks := buildTracks preset bass_preset octave voices sustain
                   (noteDurations survived total) } }

/-! ## Filter helpers (`romantext_to_orbital.py`, lines 610-627) -/

/-- Function `filter_by_measures`: restrict events to an inclusive measure range, with
a no-op fallback when nothing matches. -/
def filter_by_measures (events : List RawEvent) (start_m end_m : ℤ)
    (total_beats : ℚ) : List RawEvent × ℚ :=
  let filtered := events.filter (fun e => start_m ≤ e.measure ∧ e.measure ≤ end_m)
  if filtered = [] then (events, total_beats)
  else
    let clip_start := filtered.headI.beat
    let clip_end := (filtered.getLastD default).beat
    let last_dur :=
      if 2 ≤ filtered.length then
        clip_end - (filtered.dropLast.getLastD default).beat
      else 4
    (filtered, clip_end + last_dur - clip_start)

/-! ## Ribbon image generator (`docs/ribbon_plot.py`, lines 44-87)

The mesh pass is modelled with the transcendental geometry abstracted: the
corner grid (`x = xs[i]`, `y = radius*cos(theta[j])`, `z = radius*sin(theta[j])`),
the spherical projection `project`, and the camera distance
`np.linalg.norm(c - cam)` involve `cos`/`sin`/`arctan2`/`sqrt`, which have no
exact rational embedding; they enter the claims only as opaque values, so they
are parameters of the pass.  The filtering and painter's-algorithm sorting
logic — which the claims are about — is embedded concretely. -/

/-- A 3D point (coordinates: `x` axial, `y` lateral/depth, `z` vertical). -/
structure P3 where
  x : ℚ
  y : ℚ
  z : ℚ
  deriving DecidableEq, Repr

/-- One quad of the mesh pass: 3D corners, projected 2D corners, the
per-quad color value (`avg_theta`), and the painter depth. -/
structure QuadEntry where
  corners3d : List P3
  corners2d : List (ℚ × ℚ)
  colorV : ℚ
  depth : ℚ
  deriving DecidableEq, Repr

/-- Corners `corners_3d` of the quad at grid cell `(i, j)` (lines 51-57), in the
source's corner order `[(0,0), (1,0), (1,1), (0,1)]`. -/
def mkCorners (corner : ℕ → ℕ → P3) (i j : ℕ) : List P3 :=
  [corner i j, corner (i + 1) j, corner (i + 1) (j + 1), corner i (j + 1)]

/-- The per-quad body of the mesh loop (lines 59-82): skip the quad when
`max(ys) < 0.05` or when any corner has `y < 0.01`; otherwise record the
projected corners, the color value and the mean corner distance as depth. -/
def quadAccept? (proj : P3 → ℚ × ℚ) (distCam : P3 → ℚ) (colorV : ℚ)
    (cs : List P3) : Option QuadEntry :=
  if ((cs.map P3.y).max?.getD 0) < 1 / 20 then none
  else if cs.any (fun c => c.y < 1 / 100) then none
  else some { corners3d := cs
              corners2d := cs.map proj
              colorV := colorV
              depth := (cs.map distCam).sum / 4 }

/-- The double mesh loop (lines 48-82). -/
def ribbonQuads (corner : ℕ → ℕ → P3) (proj : P3 → ℚ × ℚ) (distCam : P3 → ℚ)
    (colorOf : ℕ → ℚ) (n_x n_theta : ℕ) : List QuadEntry :=
  (List.range (n_x - 1)).flatMap (fun i =>
    (List.range (n_theta - 1)).filterMap (fun j =>
      quadAccept? proj distCam (colorOf j) (mkCorners corner i j)))

/-- Painter's sort (lines 84-87): `np.argsort(depths)[::-1]`, i.e. the quads
reordered by non-increasing depth (farthest first). -/
def ribbonDrawList (corner : ℕ → ℕ → P3) (proj : P3 → ℚ × ℚ)
    (distCam : P3 → ℚ) (colorOf : ℕ → ℚ) (n_x n_theta : ℕ) : List QuadEntry :=
  (ribbonQuads corner proj distCam colorOf n_x n_theta).mergeSort
    (fun a b => b.depth ≤ a.depth)

/-! ## Definitions following the specification's words

Each `*_claim` / `*Spec` definition below renders a claim's natural-language
description, to be compared with the source-translated definition above. -/

/-- Position `i` of `cs` holds a `/` immediately followed by a character that
can start a target-key token (`I i V v b #`). -/
def validSlashAt (cs : List Char) (i : ℕ) : Bool :=
  cs.getD i ' ' = '/' ∧ i + 1 < cs.length ∧ cs.getD (i + 1) ' ' ∈ slashTargets

/-- The claim's delimiter: the rightmost valid `/`, wherever it occurs. -/
def rightmostValidSlash (cs : List Char) : Option ℕ :=
  ((List.range cs.length).filter (fun i => validSlashAt cs i)).getLast?

/-- Function `resolve_applied` as claim C1 words it: split at the rightmost valid `/`
(no restriction on its position). -/
def resolve_applied_claim (roman : String) (key : KeyState) :
    Option (String × KeyState) :=
  let cs := roman.data
  match rightmostValidSlash cs with
  | none => some (roman, key)
  | some idx =>
    (tonicize key (String.mk (cs.drop (idx + 1)))).map
      (fun k => (String.mk (cs.take idx), k))

/-- The amended delimiter: the rightmost valid `/` at a positive position
(a `/` that is the first character is never a separator). -/
def rightmostValidSlashPos (cs : List Char) : Option ℕ :=
  ((List.range cs.length).filter
    (fun i => decide (0 < i) && validSlashAt cs i)).getLast?

/-- Function `resolve_applied` as amended: split at the rightmost valid `/` that is
not the first character of the symbol. -/
def resolve_applied_amended (roman : String) (key : KeyState) :
    Option (String × KeyState) :=
  let cs := roman.data
  match rightmostValidSlashPos cs with
  | none => some (roman, key)
  | some idx =>
    (tonicize key (String.mk (cs.drop (idx + 1)))).map
      (fun k => (String.mk (cs.take idx), k))

/-- Function `tonicize` as claim C2 words it, for a key whose root has semitone
`root_semi`: strip one leading accidental, take the mode from the case of the
remaining first letter, map the leading I/V run through the degree table, look
the degree up in the key's diatonic scale, add the accidental offset mod 12
and spell the result through the fixed table; unparsable input returns the
key unchanged. -/
def tonicizeSpec (key : KeyState) (root_semi : ℤ) (target_roman : String) :
    KeyState :=
  let po : ℤ × List Char :=
    match target_roman.data with
    | 'b' :: rest => (-1, rest)
    | '#' :: rest => (1, rest)
    | l => (0, l)
  match po.2 with
  | [] => key
  | c :: _ =>
    let numeral := (po.2.map Char.toUpper).takeWhile
      (fun ch => ch = 'I' ∨ ch = 'V')
    match NUMERAL_TO_DEGREE numeral with
    | none => key
    | some degree_idx =>
      let semis := scale_semitones root_semi key.scale
      if degree_idx < semis.length then
        { root := SEMI_TO_PC.getD ((semis.getD degree_idx 0 + po.1) % 12).toNat "C"
          scale := if c.isUpper then "major" else "minor" }
      else key

/-- Function `is_supported_roman` as claim C3 words it, organized by the stripped
symbol's leading characters. -/
def is_supported_roman_claim (s : String) : Bool :=
  let t := if s.data.contains '[' then
             pyStrip (s.data.takeWhile (fun c => c ≠ '['))
           else s.data
  match t with
  | [] => false
  | c :: rest =>
    if c = 'N' then t = "N".data ∨ t = "N6".data
    else if hasPrefixC "It".data t ∨ hasPrefixC "Ger".data t ∨
        hasPrefixC "Fr".data t then
      t ∈ ["It6".data, "Ger6/5".data, "Ger7".data, "Fr4/3".data, "Fr6".data]
    else if c = 'b' ∨ c = '#' then
      match rest with
      | [] => false
      | d :: _ => d.toUpper = 'I' ∨ d.toUpper = 'V'
    else c ∈ (['I', 'i', 'V', 'v'] : List Char)

/-! ## Lemmas and claim theorems -/
/-! ## Helper lemmas -/

theorem isUpper_eq_false_of_isLower {c : Char} (h : c.isLower = true) :
    c.isUpper = false := by
  have e65 : ((65 : UInt32).toBitVec).toNat = 65 := rfl
  have e90 : ((90 : UInt32).toBitVec).toNat = 90 := rfl
  have e97 : ((97 : UInt32).toBitVec).toNat = 97 := rfl
  have e122 : ((122 : UInt32).toBitVec).toNat = 122 := rfl
  rw [Bool.eq_false_iff]
  intro hu
  simp only [Char.isLower, Char.isUpper, Bool.and_eq_true, decide_eq_true_eq,
    UInt32.le_def, BitVec.le_def, e65, e90, e97, e122] at h hu
  omega

theorem isLower_of_toNat_bounds {c : Char} (hn : 97 ≤ c.toNat ∧ c.toNat ≤ 122) :
    c.isLower = true := by
  have e97 : ((97 : UInt32).toBitVec).toNat = 97 := rfl
  have e122 : ((122 : UInt32).toBitVec).toNat = 122 := rfl
  simp only [Char.isLower, Bool.and_eq_true, decide_eq_true_eq, UInt32.le_def,
    BitVec.le_def, e97, e122]
  simp only [Char.toNat, UInt32.toNat] at hn
  omega

theorem toUpper_of_not_lower {c : Char} (hn : ¬(97 ≤ c.toNat ∧ c.toNat ≤ 122)) :
    c.toUpper = c := by
  simp [Char.toUpper, hn]

/-- A character whose uppercased form is a natural pitch-class letter is a
cased latin letter, so "lowercase" and "not uppercase" coincide on it. -/
theorem isLower_eq_not_isUpper {c : Char}
    (h : (PC_TO_SEMI c.toUpper).isSome) : c.isLower = !c.isUpper := by
  by_cases hn : 97 ≤ c.toNat ∧ c.toNat ≤ 122
  · have hl := isLower_of_toNat_bounds hn
    rw [hl, isUpper_eq_false_of_isLower hl]
    rfl
  · rw [toUpper_of_not_lower hn] at h
    unfold PC_TO_SEMI at h
    split at h <;> simp_all

/-- Claim C10: `parse_key_str` returns `none` exactly when the stripped string
is empty or its first character, uppercased, is not one of `C D E F G A B`;
on any other input it returns a key whose scale is `"minor"` iff the first
character was lowercase and whose root is the uppercased first letter
followed by the rest of the stripped string verbatim. -/
theorem parse_key_str_characterization (s : String) :
    (parse_key_str s = none ↔
      pyStrip s.data = [] ∨
        ∃ c rest, pyStrip s.data = c :: rest ∧ PC_TO_SEMI c.toUpper = none) ∧
    (∀ c rest, pyStrip s.data = c :: rest → (PC_TO_SEMI c.toUpper).isSome →
      parse_key_str s = some
        { root := String.mk (c.toUpper :: rest)
          scale := if c.isLower then "minor" else "major" }) := by
  cases hst : pyStrip s.data with
  | nil =>
    constructor
    · simp only [parse_key_str, hst]
      tauto
    · intro c rest heq
      simp at heq
  | cons c rest =>
    constructor
    · simp only [parse_key_str, hst]
      by_cases hsome : (PC_TO_SEMI c.toUpper).isSome
      · simp only [if_pos hsome]
        constructor
        · intro h; simp at h
        · rintro (h | ⟨c', rest', hcr, hnone⟩)
          · exact absurd h (by simp)
          · injection hcr with h1 h2
            subst h1
            rw [hnone] at hsome
            simp at hsome
      · simp only [if_neg hsome]
        constructor
        · intro _
          right
          exact ⟨c, rest, rfl, Option.not_isSome_iff_eq_none.mp hsome⟩
        · intro _; trivial
    · intro c' rest' heq hsome
      injection heq with h1 h2
      subst h1; subst h2
      simp only [parse_key_str, hst, if_pos hsome]
      have hcase := isLower_eq_not_isUpper hsome
      cases hu : c.isUpper <;> rw [hu] at hcase <;>
        simp only [Bool.not_false, Bool.not_true] at hcase <;> simp [hcase]

/-- Witness for C10 at the concrete input `"f#"`. -/
theorem parse_key_str_characterization_witness :
    parse_key_str "f#" = some { root := "F#", scale := "minor" } := by
  have h := (parse_key_str_characterization "f#").2 'f' ['#'] (by decide) (by decide)
  rw [h]
  decide

/-- Claim C3: `is_supported_roman` agrees everywhere with the claim's case
analysis (strip bracket suffix; empty unsupported; `N`-prefixed only as
`N`/`N6`; augmented sixths only as the five listed spellings; a leading
accidental only before `I`/`V` case-insensitively; otherwise first character
in `I i V v`), and the claim's concrete examples hold, with `"N7"` drawing
the extended-Neapolitan skip reason. -/
theorem is_supported_roman_matches_claim :
    (∀ s, is_supported_roman s = is_supported_roman_claim s) ∧
    is_supported_roman "N7" = false ∧
    _skip_reason "N7" =
      "extended Neapolitan \x27N7\x27 (only N and N6 are supported)" ∧
    is_supported_roman "N6" = true ∧
    is_supported_roman "Ger6/5" = true ∧
    is_supported_roman "Ger9" = false := by
  refine ⟨?_, by decide, by decide, by decide, by decide, by decide⟩
  intro s
  unfold is_supported_roman is_supported_roman_claim
  by_cases hs : s.data = []
  · simp [hs]
  · simp only [hs, if_neg, if_false]
    generalize (if s.data.contains '[' then
      pyStrip (s.data.takeWhile (fun c => c ≠ '[')) else s.data) = t
    cases t with
    | nil => rfl
    | cons c rest =>
      have hN : ("N".data) = ['N'] := rfl
      by_cases hc : c = 'N'
      · subst hc
        simp [hN, hasPrefixC]
      · simp [hN, hasPrefixC, hc, Ne.symm hc]

/-- Claim C2: on any key whose root parses to a semitone, `tonicize` computes
exactly the claim's algorithm (strip one accidental, mode from the numeral's
case, degree table on the leading I/V run, diatonic-scale lookup, offset mod
12, fixed spelling table, key unchanged on unparsable input), and the claim's
concrete examples hold. -/
theorem tonicize_matches_spec (key : KeyState) (t : String) (s : ℤ)
    (h : parse_pitch_class key.root = some s) :
    tonicize key t = some (tonicizeSpec key s t) ∧
    tonicize ⟨"C", "major"⟩ "V" = some ⟨"G", "major"⟩ ∧
    tonicize ⟨"C", "major"⟩ "bIII" = some ⟨"Eb", "major"⟩ := by
  refine ⟨?_, by decide, by decide⟩
  unfold tonicize tonicizeSpec KeyState.semitone
  rw [h]
  repeat' (first | rfl | split)
  all_goals simp_all
  all_goals (repeat' (first | rfl | split))

/-- Witness for C2 at C major and target `"V"`. -/
theorem tonicize_matches_spec_witness :
    tonicize ⟨"C", "major"⟩ "V" = some (tonicizeSpec ⟨"C", "major"⟩ 0 "V") ∧
    tonicizeSpec ⟨"C", "major"⟩ 0 "V" = ⟨"G", "major"⟩ := by
  refine ⟨(tonicize_matches_spec ⟨"C", "major"⟩ "V" 0 (by decide)).1, by decide⟩

/-- The downward scan of `resolve_applied` finds exactly the rightmost valid
`/` among positions `1..p`. -/
theorem findSlashFrom_eq (cs : List Char) : ∀ p, findSlashFrom cs p =
    ((List.range (p + 1)).filter
      (fun i => decide (0 < i) && validSlashAt cs i)).getLast?
  | 0 => by
    have hf : (List.range 1).filter
        (fun i => decide (0 < i) && validSlashAt cs i) = [] := by
      have h1 : List.range 1 = [0] := rfl
      rw [h1]
      simp
    rw [findSlashFrom, hf]
    rfl
  | p + 1 => by
    rw [findSlashFrom, List.range_succ, List.filter_append]
    by_cases hv : validSlashAt cs (p + 1)
    · have hone : List.filter (fun i => decide (0 < i) && validSlashAt cs i)
          [p + 1] = [p + 1] := by
        simp [hv]
      rw [hone, List.getLast?_concat]
      rw [validSlashAt, decide_eq_true_eq] at hv
      obtain ⟨ha, hb, hc⟩ := hv
      rw [if_pos ⟨ha, hb⟩, if_pos hc]
    · have hvf : validSlashAt cs (p + 1) = false := by
        rwa [Bool.not_eq_true] at hv
      have hnone : List.filter (fun i => decide (0 < i) && validSlashAt cs i)
          [p + 1] = [] := by
        simp [hvf]
      rw [hnone, List.append_nil, ← findSlashFrom_eq cs p]
      rw [validSlashAt, decide_eq_true_eq] at hv
      by_cases h1 : cs.getD (p + 1) ' ' = '/' ∧ p + 2 < cs.length
      · have hc : ¬ cs.getD (p + 2) ' ' ∈ slashTargets := fun hc =>
          hv ⟨h1.1, h1.2, hc⟩
        rw [if_pos h1, if_neg hc]
      · rw [if_neg h1]

/-- Claim C1 (amended): `resolve_applied` splits a symbol at the rightmost `/`
that is *not the symbol's first character* and is immediately followed by a
character in `I i V v b #`, tonicizing the part after it; with no such `/`
the symbol and key pass through unchanged.  The claim's concrete examples
hold as stated. -/
theorem resolve_applied_matches_amended :
    (∀ roman key, resolve_applied roman key = resolve_applied_amended roman key) ∧
    resolve_applied "V7/V" ⟨"C", "major"⟩ = some ("V7", ⟨"G", "major"⟩) ∧
    resolve_applied "ii6/5" ⟨"C", "major"⟩ = some ("ii6/5", ⟨"C", "major"⟩) := by
  refine ⟨?_, by decide, by decide⟩
  intro roman key
  simp only [resolve_applied, resolve_applied_amended, rightmostValidSlashPos]
  rw [findSlashFrom_eq]
  rcases hc : roman.data with _ | ⟨c, cs⟩
  · simp [show (List.range 1).reverse = [0] from rfl, List.find?]
  · have hl : (c :: cs).length - 1 + 1 = (c :: cs).length := by simp
    rw [hl]

/-- Counterexample to C1 as stated: in `"/V"` the rightmost `/` immediately
followed by a target character is the first character, and the code does not
split there, returning the symbol unchanged, while the claim's reading
splits off an empty chord part and tonicizes `"V"`. -/
theorem resolve_applied_claim_counterexample :
    resolve_applied "/V" ⟨"C", "major"⟩ = some ("/V", ⟨"C", "major"⟩) ∧
    resolve_applied_claim "/V" ⟨"C", "major"⟩ = some ("", ⟨"G", "major"⟩) ∧
    resolve_applied "/V" ⟨"C", "major"⟩ ≠
      resolve_applied_claim "/V" ⟨"C", "major"⟩ :=
  ⟨by decide, by decide, by decide⟩

/-- Function `ratAbs` is the absolute value. -/
theorem ratAbs_eq_abs (q : ℚ) : ratAbs q = |q| := by
  unfold ratAbs
  rcases lt_or_ge q 0 with h | h
  · rw [if_pos h, abs_of_neg h]
  · rw [if_neg (not_lt.mpr h), abs_of_nonneg h]

/-- Replaying two same-beat events through the dedup step: the second
replaces the first. -/
theorem dedupStep_step (acc : List RawEvent) (a b : RawEvent)
    (hab : a.beat = b.beat) :
    dedupStep (dedupStep acc a) b = dedupStep acc b := by
  unfold dedupStep
  cases hl : acc.getLast? with
  | none =>
    have hacc : acc = [] := List.getLast?_eq_none_iff.mp hl
    subst hacc
    simp only [List.foldl, dedupStep, List.getLast?_concat]
    norm_num [ratAbs, hab]
  | some l =>
    dsimp only
    by_cases hc : ratAbs (l.beat - a.beat) < 1 / 10 ^ 9
    · rw [if_pos hc, List.getLast?_concat]
      dsimp only
      have hzero : ratAbs (a.beat - b.beat) < 1 / 10 ^ 9 := by
        rw [ratAbs_eq_abs, hab, sub_self, abs_zero]
        norm_num
      rw [if_pos hzero, List.dropLast_concat]
      rw [if_pos (show ratAbs (l.beat - b.beat) < 1 / 10 ^ 9 from hab ▸ hc)]
    · rw [if_neg hc, List.getLast?_concat]
      dsimp only
      have hzero : ratAbs (a.beat - b.beat) < 1 / 10 ^ 9 := by
        rw [ratAbs_eq_abs, hab, sub_self, abs_zero]
        norm_num
      rw [if_pos hzero, List.dropLast_concat]
      rw [if_neg (show ¬ratAbs (l.beat - b.beat) < 1 / 10 ^ 9 from hab ▸ hc)]

/-- Claim C4: in the dedup pass, an event within `1e-9` of the previously kept
event's beat replaces that event rather than being appended, so of two
consecutive same-beat events only the later one survives; concretely, two
events at beat 4.0 with romans `"V"` then `"I"` leave exactly the `"I"`
event at that beat. -/
theorem dedup_last_writer_wins :
    (∀ (acc : List RawEvent) (ev : RawEvent) (h : acc ≠ []),
        ratAbs ((acc.getLast h).beat - ev.beat) < 1 / 10 ^ 9 →
        dedupStep acc ev = acc.dropLast ++ [ev]) ∧
    (∀ (es : List RawEvent) (a b : RawEvent), a.beat = b.beat →
        dedupEvents (es ++ [a, b]) = dedupEvents (es ++ [b])) ∧
    dedupEvents [⟨4, 2, "V", ⟨"C", "major"⟩⟩, ⟨4, 2, "I", ⟨"C", "major"⟩⟩] =
      [⟨4, 2, "I", ⟨"C", "major"⟩⟩] := by
  refine ⟨?_, ?_, by norm_num [dedupEvents, dedupStep, ratAbs, List.foldl]⟩
  · intro acc ev h hclose
    unfold dedupStep
    rw [List.getLast?_eq_getLast _ h]
    dsimp only
    rw [if_pos hclose]
  · intro es a b hab
    unfold dedupEvents
    rw [List.foldl_append, List.foldl_append]
    simpa using dedupStep_step (List.foldl dedupStep [] es) a b hab

/-- Witness for C4's hypothesis-bearing parts at concrete events. -/
theorem dedup_last_writer_wins_witness :
    dedupStep [(⟨4, 1, "V", ⟨"C", "major"⟩⟩ : RawEvent)]
        ⟨4, 1, "I", ⟨"C", "major"⟩⟩ = [⟨4, 1, "I", ⟨"C", "major"⟩⟩] ∧
    dedupEvents ([⟨0, 1, "I", ⟨"C", "major"⟩⟩] ++
        [⟨4, 1, "V", ⟨"C", "major"⟩⟩, ⟨4, 1, "I", ⟨"C", "major"⟩⟩]) =
      dedupEvents ([⟨0, 1, "I", ⟨"C", "major"⟩⟩] ++
        [⟨4, 1, "I", ⟨"C", "major"⟩⟩]) := by
  constructor
  · have h := dedup_last_writer_wins.1 [⟨4, 1, "V", ⟨"C", "major"⟩⟩]
      ⟨4, 1, "I", ⟨"C", "major"⟩⟩ (by simp) (by norm_num [ratAbs, List.getLast])
    rw [h]
    simp
  · exact dedup_last_writer_wins.2.1 [⟨0, 1, "I", ⟨"C", "major"⟩⟩]
      ⟨4, 1, "V", ⟨"C", "major"⟩⟩ ⟨4, 1, "I", ⟨"C", "major"⟩⟩ rfl

/-- The short-filter loop body keeps exactly the events whose gap to their
successor in the original sequence (or to the total length) is big enough. -/
theorem keepLongEnough_eq (total m : ℚ) : ∀ rest : List RawEvent,
    keepLongEnough total m rest =
      ((rest.zip ((rest.drop 1).map RawEvent.beat ++ [total])).filter
        (fun p => m ≤ p.2 - p.1.beat)).map Prod.fst
  | [] => by simp [keepLongEnough]
  | [e] => by
    by_cases h : m ≤ total - e.beat <;> simp [keepLongEnough, h]
  | e :: f :: rest => by
    by_cases h : m ≤ f.beat - e.beat <;>
      simp [keepLongEnough, h, keepLongEnough_eq total m (f :: rest)]

/-- Claim C5: when the configured minimum duration is positive and more than
one event remains, the short-event filter always keeps the first event and
keeps each subsequent event iff the gap from its beat to the next event in
the *pre-filter* sequence (or to the total length, for the last event) is at
least the minimum — so an event removed by this pass does not extend its
predecessor's effective duration. -/
theorem dropShortEvents_characterization (total min_duration : ℚ)
    (l : List RawEvent) (hmin : 0 < min_duration) (hlen : 1 < l.length) :
    dropShortEvents total min_duration l =
      l.headI :: ((l.tail.zip ((l.tail.drop 1).map RawEvent.beat ++ [total])).filter
        (fun p => min_duration ≤ p.2 - p.1.beat)).map Prod.fst := by
  unfold dropShortEvents
  rw [if_pos ⟨hmin, hlen⟩]
  cases l with
  | nil => simp at hlen
  | cons e rest => simp [keepLongEnough_eq, List.headI]

/-- Witness for C5: minimum duration `0.25` drops the `1/8`-beat-long middle
event and keeps the rest. -/
theorem dropShortEvents_characterization_witness :
    dropShortEvents 4 (1 / 4)
        [⟨0, 1, "I", ⟨"C", "major"⟩⟩, ⟨1 / 8, 1, "V", ⟨"C", "major"⟩⟩,
         ⟨1 / 4, 1, "I", ⟨"C", "major"⟩⟩] =
      [⟨0, 1, "I", ⟨"C", "major"⟩⟩, ⟨1 / 4, 1, "I", ⟨"C", "major"⟩⟩] := by
  have h := dropShortEvents_characterization 4 (1 / 4)
    [⟨0, 1, "I", ⟨"C", "major"⟩⟩, ⟨1 / 8, 1, "V", ⟨"C", "major"⟩⟩,
     ⟨1 / 4, 1, "I", ⟨"C", "major"⟩⟩] (by norm_num) (by norm_num)
  rw [h]
  norm_num

/-- Claim C8: `filter_by_measures` keeps the events whose measure lies in the
inclusive range; if that set is empty it returns the original events and
total length unchanged (a no-op, no error); otherwise the new total length
is the span from the first to the last surviving event's beat plus the gap
between the last two surviving events' beats (or plus 4.0 when fewer than
two survive). -/
theorem filter_by_measures_characterization (events : List RawEvent)
    (start_m end_m : ℤ) (total : ℚ) :
    (events.filter (fun e => start_m ≤ e.measure ∧ e.measure ≤ end_m) = [] →
      filter_by_measures events start_m end_m total = (events, total)) ∧
    (∀ kept, events.filter (fun e => start_m ≤ e.measure ∧ e.measure ≤ end_m) = kept →
      kept ≠ [] →
      filter_by_measures events start_m end_m total =
        (kept,
         ((kept.getLastD default).beat - kept.headI.beat) +
           if 2 ≤ kept.length then
             (kept.getLastD default).beat - (kept.dropLast.getLastD default).beat
           else 4)) := by
  constructor
  · intro h
    simp only [filter_by_measures]
    rw [h]
    simp
  · intro kept hk hne
    simp only [filter_by_measures, hk, if_neg hne]
    rw [Prod.mk.injEq]
    refine ⟨rfl, ?_⟩
    by_cases h2 : 2 ≤ kept.length
    · rw [if_pos h2]
      ring
    · rw [if_neg h2]
      ring

/-- Witness for C8: a matching range keeps two events and yields the span
plus the last gap; a non-matching range is a no-op. -/
theorem filter_by_measures_characterization_witness :
    filter_by_measures
        [⟨0, 1, "I", ⟨"C", "major"⟩⟩, ⟨2, 2, "V", ⟨"C", "major"⟩⟩,
         ⟨4, 3, "I", ⟨"C", "major"⟩⟩] 1 2 12 =
      ([⟨0, 1, "I", ⟨"C", "major"⟩⟩, ⟨2, 2, "V", ⟨"C", "major"⟩⟩], 4) ∧
    filter_by_measures
        [⟨0, 1, "I", ⟨"C", "major"⟩⟩, ⟨2, 2, "V", ⟨"C", "major"⟩⟩,
         ⟨4, 3, "I", ⟨"C", "major"⟩⟩] 7 9 12 =
      ([⟨0, 1, "I", ⟨"C", "major"⟩⟩, ⟨2, 2, "V", ⟨"C", "major"⟩⟩,
        ⟨4, 3, "I", ⟨"C", "major"⟩⟩], 12) := by
  constructor
  · have h := (filter_by_measures_characterization
      [⟨0, 1, "I", ⟨"C", "major"⟩⟩, ⟨2, 2, "V", ⟨"C", "major"⟩⟩,
       ⟨4, 3, "I", ⟨"C", "major"⟩⟩] 1 2 12).2
      [⟨0, 1, "I", ⟨"C", "major"⟩⟩, ⟨2, 2, "V", ⟨"C", "major"⟩⟩]
      (by norm_num) (by simp)
    rw [h]
    norm_num
  · exact (filter_by_measures_characterization
      [⟨0, 1, "I", ⟨"C", "major"⟩⟩, ⟨2, 2, "V", ⟨"C", "major"⟩⟩,
       ⟨4, 3, "I", ⟨"C", "major"⟩⟩] 7 9 12).1 (by norm_num)

/-- Claim C9: a quad whose corners' maximum lateral coordinate is below `0.05`,
or with any corner's lateral coordinate below `0.01`, is excluded from the
mesh; every quad in the draw list has all corner lateral coordinates at
least `0.01`; and the draw list is ordered by non-increasing depth (farthest
first).  Stated for every corner grid, projection and camera-distance
function, since the claim's filtering and ordering do not depend on them. -/
theorem ribbonDrawList_painter (corner : ℕ → ℕ → P3) (proj : P3 → ℚ × ℚ)
    (distCam : P3 → ℚ) (colorOf : ℕ → ℚ) (n_x n_theta : ℕ) :
    (∀ (colorV : ℚ) (cs : List P3),
      ((cs.map P3.y).max?.getD 0 < 1 / 20 ∨ ∃ c ∈ cs, c.y < 1 / 100) →
        quadAccept? proj distCam colorV cs = none) ∧
    (∀ q ∈ ribbonDrawList corner proj distCam colorOf n_x n_theta,
      ∀ c ∈ q.corners3d, 1 / 100 ≤ c.y) ∧
    (ribbonDrawList corner proj distCam colorOf n_x n_theta).Pairwise
      (fun a b => b.depth ≤ a.depth) := by
  refine ⟨?_, ?_, ?_⟩
  · intro colorV cs h
    unfold quadAccept?
    by_cases hm : (cs.map P3.y).max?.getD 0 < 1 / 20
    · rw [if_pos hm]
    · rw [if_neg hm]
      rcases h with h | ⟨c, hc, hy⟩
      · exact absurd h hm
      · have hany : cs.any (fun c => c.y < 1 / 100) = true := by
          rw [List.any_eq_true]
          exact ⟨c, hc, by simpa using hy⟩
        rw [if_pos hany]
  · intro q hq c hcq
    rw [ribbonDrawList, List.mem_mergeSort, ribbonQuads, List.mem_flatMap] at hq
    obtain ⟨i, _, hq⟩ := hq
    rw [List.mem_filterMap] at hq
    obtain ⟨j, _, heq⟩ := hq
    unfold quadAccept? at heq
    by_cases h1 : ((mkCorners corner i j).map P3.y).max?.getD 0 < 1 / 20
    · rw [if_pos h1] at heq
      exact absurd heq (by simp)
    · rw [if_neg h1] at heq
      by_cases h2 : (mkCorners corner i j).any (fun c => c.y < 1 / 100)
      · rw [if_pos h2] at heq
        exact absurd heq (by simp)
      · rw [if_neg h2] at heq
        have hc3 : q.corners3d = mkCorners corner i j := by
          rw [← Option.some_inj.mp heq]
        rw [hc3] at hcq
        rw [Bool.not_eq_true, List.any_eq_false] at h2
        have := h2 c hcq
        simpa using this
  · have htrans : ∀ (a b c : QuadEntry), (decide (b.depth ≤ a.depth)) = true →
        (decide (c.depth ≤ b.depth)) = true →
        (decide (c.depth ≤ a.depth)) = true := by
      intro a b c hab hbc
      simp only [decide_eq_true_eq] at *
      exact hbc.trans hab
    have htotal : ∀ (a b : QuadEntry),
        ((decide (b.depth ≤ a.depth)) || (decide (a.depth ≤ b.depth))) = true := by
      intro a b
      simp only [Bool.or_eq_true, decide_eq_true_eq]
      exact le_total b.depth a.depth
    have hs := List.sorted_mergeSort htrans htotal
      (ribbonQuads corner proj distCam colorOf n_x n_theta)
    exact hs.imp (fun h => by simpa using h)

/-- Witness for C9: a quad behind the camera is rejected, and a fully visible
quad survives into the draw list with its corners' lateral coordinates
at least `0.01`. -/
theorem ribbonDrawList_painter_witness :
    quadAccept? (fun _ => ((0 : ℚ), (0 : ℚ))) (fun _ => (0 : ℚ)) 0
        [⟨0, 0, 0⟩] = none ∧
    (∀ c ∈ (QuadEntry.mk [⟨0, 1, 0⟩, ⟨0, 1, 0⟩, ⟨0, 1, 0⟩, ⟨0, 1, 0⟩]
        [(0, 0), (0, 0), (0, 0), (0, 0)] 0 0).corners3d, 1 / 100 ≤ c.y) := by
  constructor
  · exact (ribbonDrawList_painter (fun _ _ => ⟨0, 0, 0⟩) (fun _ => (0, 0))
      (fun _ => 0) (fun _ => 0) 2 2).1 0 [⟨0, 0, 0⟩]
      (Or.inr ⟨⟨0, 0, 0⟩, by simp, by norm_num⟩)
  · have hlist : ribbonDrawList (fun _ _ => ⟨0, 1, 0⟩) (fun _ => ((0 : ℚ), (0 : ℚ)))
        (fun _ => (0 : ℚ)) (fun _ => (0 : ℚ)) 2 2 =
        [QuadEntry.mk [⟨0, 1, 0⟩, ⟨0, 1, 0⟩, ⟨0, 1, 0⟩, ⟨0, 1, 0⟩]
          [(0, 0), (0, 0), (0, 0), (0, 0)] 0 0] := by
      norm_num [ribbonDrawList, ribbonQuads, quadAccept?, mkCorners,
        show List.range 1 = [0] from rfl, List.filterMap_cons, List.filterMap_nil,
        List.mergeSort_singleton]
    exact fun c hc => (ribbonDrawList_painter (fun _ _ => ⟨0, 1, 0⟩)
      (fun _ => ((0 : ℚ), (0 : ℚ))) (fun _ => (0 : ℚ)) (fun _ => (0 : ℚ)) 2 2).2.1
      _ (by rw [hlist]; simp) c hc

/-- Every event kept by one dedup step is a previously kept event or the new
one. -/
theorem dedupStep_subset (acc : List RawEvent) (ev : RawEvent) :
    ∀ x ∈ dedupStep acc ev, x ∈ acc ∨ x = ev := by
  intro x hx
  unfold dedupStep at hx
  cases hl : acc.getLast? with
  | none =>
    rw [hl] at hx
    simp at hx
    right; exact hx
  | some l =>
    rw [hl] at hx
    dsimp only at hx
    by_cases hc : ratAbs (l.beat - ev.beat) < 1 / 10 ^ 9
    · rw [if_pos hc] at hx
      rcases List.mem_append.mp hx with h | h
      · exact Or.inl ((List.dropLast_sublist acc).subset h)
      · simp at h; right; exact h
    · rw [if_neg hc] at hx
      rcases List.mem_append.mp hx with h | h
      · exact Or.inl h
      · simp at h; right; exact h

/-- Every event surviving the dedup pass was among the input events. -/
theorem dedupEvents_subset (es : List RawEvent) :
    ∀ e ∈ dedupEvents es, e ∈ es := by
  suffices h : ∀ es acc, ∀ x ∈ List.foldl dedupStep acc es, x ∈ acc ∨ x ∈ es by
    intro e he
    rcases h es [] e he with h' | h'
    · simp at h'
    · exact h'
  intro es
  induction es with
  | nil => intro acc x hx; exact Or.inl hx
  | cons e es ih =>
    intro acc x hx
    rcases ih (dedupStep acc e) x hx with h' | h'
    · rcases dedupStep_subset acc e x h' with h'' | h''
      · exact Or.inl h''
      · exact Or.inr (by simp [h''])
    · exact Or.inr (List.mem_cons_of_mem _ h')

/-- Claim C7: with no events at all, or when no event survives the supported-
chord filter, the builder emits exactly the empty-input document shape:
`totalBeats = max(round(totalBeats, 1), 4.0)`, a single `setChord` at beat 0
with degrees `[0, 2, 4]` and inversion 0, and no tracks. -/
theorem build_orbital_empty_shape (title : String) (key : KeyState) (bpm : ℚ)
    (loop : Bool) (preset : String) (bass_preset : Option String)
    (octave voices : ℤ) (sustain min_duration : ℚ) (events : List RawEvent)
    (total_beats : ℚ) :
    (events = [] →
      build_orbital_json title key events total_beats bpm loop preset
          bass_preset octave voices sustain min_duration =
        some (_empty_json title key bpm loop total_beats)) ∧
    ((∀ e ∈ events, is_supported_roman e.roman = false) →
      ∃ tb, build_orbital_json title key events total_beats bpm loop preset
          bass_preset octave voices sustain min_duration =
        some (_empty_json title key bpm loop tb)) ∧
    (∀ tb, _empty_json title key bpm loop tb =
      { name := title
        scoreTracks :=
        { bpm := bpm
          totalBeats := max (roundTo 1 tb) 4
          loop := loop
          keyRoot := key.root
          keyScale := key.scale
          chordEvents := [ChordEvent.setChord 0 [0, 2, 4] 0]
          tracks := [] } }) := by
  refine ⟨?_, ?_, fun tb => rfl⟩
  · intro h
    subst h
    simp [build_orbital_json]
  · intro hall
    by_cases hev : events = []
    · subst hev
      exact ⟨total_beats, by simp [build_orbital_json]⟩
    · by_cases hshift : 1 / 10 ^ 9 < ratAbs (dedupEvents events).headI.beat
      · refine ⟨max (total_beats - (dedupEvents events).headI.beat) 1, ?_⟩
        have hsup : List.filter (fun e => is_supported_roman e.roman)
            (List.map (fun e => { e with
                beat := e.beat - (dedupEvents events).headI.beat })
              (dedupEvents events)) = [] := by
          rw [List.filter_eq_nil_iff]
          intro x hx
          obtain ⟨y, hy, rfl⟩ := List.mem_map.mp hx
          simp [hall y (dedupEvents_subset events y hy)]
        simp only [build_orbital_json, if_neg hev, if_pos hshift, hsup]
        simp
      · refine ⟨max total_beats 1, ?_⟩
        have hsup : List.filter (fun e => is_supported_roman e.roman)
            (dedupEvents events) = [] := by
          rw [List.filter_eq_nil_iff]
          intro x hx
          simp [hall x (dedupEvents_subset events x hx)]
        simp only [build_orbital_json, if_neg hev, if_neg hshift, hsup]
        simp

/-- Witness for C7: the empty event list, and an event list whose only chord
symbol is unsupported, both yield the empty-document shape. -/
theorem build_orbital_empty_shape_witness :
    build_orbital_json "t" ⟨"C", "major"⟩ [] 5 72 true "p" none 3 6 (17 / 20)
        (1 / 4) = some (_empty_json "t" ⟨"C", "major"⟩ 72 true 5) ∧
    ∃ tb, build_orbital_json "t" ⟨"C", "major"⟩ [⟨0, 1, "X9", ⟨"C", "major"⟩⟩]
        5 72 true "p" none 3 6 (17 / 20) (1 / 4) =
      some (_empty_json "t" ⟨"C", "major"⟩ 72 true tb) := by
  constructor
  · exact (build_orbital_empty_shape "t" ⟨"C", "major"⟩ 72 true "p" none 3 6
      (17 / 20) (1 / 4) [] 5).1 rfl
  · exact (build_orbital_empty_shape "t" ⟨"C", "major"⟩ 72 true "p" none 3 6
      (17 / 20) (1 / 4) [⟨0, 1, "X9", ⟨"C", "major"⟩⟩] 5).2.1
      (by intro e he; simp at he; rw [he]; decide)

/-- Half-even rounding is exact on integers. -/
theorem roundHE_intCast (n : ℤ) : roundHE (n : ℚ) = n := by
  unfold roundHE
  norm_num

/-- Rounding `roundTo 6` is exact on multiples of `1e-6`. -/
theorem roundTo_6_exact {a : ℚ} {k : ℤ} (h : a * 10 ^ 6 = k) :
    roundTo 6 a = a := by
  unfold roundTo
  rw [h, roundHE_intCast, ← h]
  field_simp

/-- Every `roundTo 6` value is a multiple of `1e-6`. -/
theorem roundTo_6_isMicro (x : ℚ) : ∃ k : ℤ, roundTo 6 x * 10 ^ 6 = k := by
  refine ⟨roundHE (x * 10 ^ 6), ?_⟩
  unfold roundTo
  field_simp

/-- Half-even rounding takes values in `{⌊q⌋, ⌊q⌋ + 1}`. -/
theorem roundHE_floor_cases (q : ℚ) :
    roundHE q = ⌊q⌋ ∨ roundHE q = ⌊q⌋ + 1 := by
  unfold roundHE
  dsimp only
  split_ifs <;> simp

/-- Half-even rounding is monotone. -/
theorem roundHE_mono {a b : ℚ} (h : a ≤ b) : roundHE a ≤ roundHE b := by
  have hf : ⌊a⌋ ≤ ⌊b⌋ := Int.floor_le_floor h
  rcases lt_or_eq_of_le hf with hlt | heq
  · have h1 : roundHE a ≤ ⌊a⌋ + 1 := by
      rcases roundHE_floor_cases a with h' | h' <;> omega
    have h2 : ⌊b⌋ ≤ roundHE b := by
      rcases roundHE_floor_cases b with h' | h' <;> omega
    omega
  · have hr : a - ⌊a⌋ ≤ b - ⌊b⌋ := by
      rw [← heq]
      have : (⌊a⌋ : ℚ) = (⌊b⌋ : ℚ) := by exact_mod_cast heq
      linarith [this]
    unfold roundHE
    rw [← heq]
    dsimp only
    split_ifs <;> first | omega | linarith

/-- Rounding `roundTo 6` is monotone. -/
theorem roundTo_6_mono {a b : ℚ} (h : a ≤ b) : roundTo 6 a ≤ roundTo 6 b := by
  unfold roundTo
  have hm : roundHE (a * 10 ^ 6) ≤ roundHE (b * 10 ^ 6) :=
    roundHE_mono (by nlinarith)
  have hc : (roundHE (a * 10 ^ 6) : ℚ) ≤ (roundHE (b * 10 ^ 6) : ℚ) := by
    exact_mod_cast hm
  exact (div_le_div_iff_of_pos_right (by norm_num)).mpr hc

/-- Rounding `roundTo 6` fixes `0`. -/
theorem roundTo_6_zero : roundTo 6 (0 : ℚ) = 0 := by
  have : (0 : ℚ) * 10 ^ 6 = ((0 : ℤ) : ℚ) := by norm_num
  rw [roundTo_6_exact this]

/-- Rounding `roundTo 6` fixes `1`. -/
theorem roundTo_6_one : roundTo 6 (1 : ℚ) = 1 := by
  have : (1 : ℚ) * 10 ^ 6 = ((10 ^ 6 : ℤ) : ℚ) := by norm_num
  rw [roundTo_6_exact this]

/-- Membership in `insertDedup`. -/
theorem mem_insertDedup (x : ℚ) : ∀ (l : List ℚ) (a : ℚ),
    a ∈ insertDedup x l ↔ a = x ∨ a ∈ l
  | [], a => by simp [insertDedup]
  | y :: ys, a => by
    unfold insertDedup
    split_ifs with h1 h2
    · simp
    · subst h2
      simp
    · simp [mem_insertDedup x ys a]
      tauto

/-- Insertion `insertDedup` preserves strict sortedness. -/
theorem pairwise_insertDedup (x : ℚ) : ∀ l : List ℚ,
    l.Pairwise (· < ·) → (insertDedup x l).Pairwise (· < ·)
  | [], _ => by simp [insertDedup]
  | y :: ys, h => by
    rw [List.pairwise_cons] at h
    obtain ⟨hy, hys⟩ := h
    unfold insertDedup
    split_ifs with h1 h2
    · rw [List.pairwise_cons]
      refine ⟨?_, by rw [List.pairwise_cons]; exact ⟨hy, hys⟩⟩
      intro z hz
      rcases List.mem_cons.mp hz with h' | h'
      · rw [h']; exact h1
      · exact h1.trans (hy z h')
    · rw [List.pairwise_cons]
      exact ⟨hy, hys⟩
    · have hyx : y < x := by
        rcases lt_trichotomy x y with h' | h' | h' <;> first | exact absurd h' h1 | exact absurd h' h2 | exact h'
      rw [List.pairwise_cons]
      refine ⟨?_, pairwise_insertDedup x ys hys⟩
      intro z hz
      rcases (mem_insertDedup x ys z).mp hz with h' | h'
      · rw [h']; exact hyx
      · exact hy z h'

/-- Membership in `sortedDistinct`. -/
theorem mem_sortedDistinct : ∀ (l : List ℚ) (a : ℚ),
    a ∈ sortedDistinct l ↔ a ∈ l
  | [], a => by simp [sortedDistinct]
  | y :: ys, a => by
    show a ∈ insertDedup y (sortedDistinct ys) ↔ a ∈ y :: ys
    rw [mem_insertDedup, mem_sortedDistinct ys a]
    simp

/-- Output of `sortedDistinct` is strictly sorted. -/
theorem pairwise_sortedDistinct : ∀ l : List ℚ,
    (sortedDistinct l).Pairwise (· < ·)
  | [] => by simp [sortedDistinct]
  | y :: ys => by
    show (insertDedup y (sortedDistinct ys)).Pairwise (· < ·)
    exact pairwise_insertDedup y _ (pairwise_sortedDistinct ys)

/-- Dropping the head of a two-or-more-element list keeps its last element. -/
theorem getLastD_cons_cons (x y : ℚ) (t : List ℚ) :
    (x :: y :: t).getLastD 0 = (y :: t).getLastD 0 := by
  rw [List.getLastD_cons, List.getLastD_cons, List.getLastD_cons]

/-- The default-0 last element of a nonempty list is a member. -/
theorem getLastD_mem : ∀ (l : List ℚ), l ≠ [] → l.getLastD 0 ∈ l
  | [], h => absurd rfl h
  | [x], _ => by
    rw [List.getLastD_cons, List.getLastD_nil]
    exact List.mem_singleton_self x
  | x :: y :: t, _ => by
    rw [getLastD_cons_cons]
    exact List.mem_cons_of_mem x (getLastD_mem (y :: t) (by simp))

/-- In a strictly sorted list every member is at most the last element. -/
theorem le_getLastD_of_pairwise : ∀ (l : List ℚ), l.Pairwise (· < ·) →
    ∀ b ∈ l, b ≤ l.getLastD 0
  | [], _, b, hb => by simp at hb
  | [x], _, b, hb => by
    simp at hb
    subst hb
    rw [List.getLastD_cons, List.getLastD_nil]
  | x :: y :: t, h, b, hb => by
    rw [List.pairwise_cons] at h
    obtain ⟨hx, ht⟩ := h
    rw [getLastD_cons_cons]
    rcases List.mem_cons.mp hb with h' | h'
    · subst h'
      exact le_of_lt (hx _ (getLastD_mem (y :: t) (by simp)))
    · exact le_getLastD_of_pairwise (y :: t) ht b h'

/-- In a strictly sorted list the head is at most every member. -/
theorem headI_le_of_pairwise : ∀ (l : List ℚ), l.Pairwise (· < ·) →
    ∀ b ∈ l, l.headI ≤ b
  | [], _, b, hb => by simp at hb
  | x :: t, h, b, hb => by
    rw [List.pairwise_cons] at h
    rcases List.mem_cons.mp hb with h' | h'
    · subst h'
      simp [List.headI]
    · simpa [List.headI] using le_of_lt (h.1 b h')

/-- Telescoping: on a strictly sorted list of multiples of `1e-6`, the
computed gap durations sum to last-minus-first. -/
theorem sum_durGaps : ∀ (l : List ℚ),
    (∀ b ∈ l, ∃ k : ℤ, b * 10 ^ 6 = k) → l.Pairwise (· < ·) →
    (durGaps l).sum = l.getLastD 0 - l.headI
  | [], _, _ => by
    simp [durGaps]
    rfl
  | [b], _, _ => by
    simp [durGaps, List.getLastD_cons, List.getLastD_nil, List.headI]
  | a :: b :: rest, hm, hp => by
    rw [List.pairwise_cons] at hp
    obtain ⟨ha, hp'⟩ := hp
    have hab : a < b := ha b (by simp)
    obtain ⟨ka, hka⟩ := hm a (by simp)
    obtain ⟨kb, hkb⟩ := hm b (by simp)
    have hmicro : (b - a) * 10 ^ 6 = ((kb - ka : ℤ) : ℚ) := by
      push_cast
      rw [← hka, ← hkb]
      ring
    have hexact : roundTo 6 (b - a) = b - a := roundTo_6_exact hmicro
    have hpos : 0 < roundTo 6 (b - a) := by
      rw [hexact]
      linarith
    have hrec := sum_durGaps (b :: rest)
      (fun x hx => hm x (List.mem_cons_of_mem a hx)) hp'
    unfold durGaps
    dsimp only
    rw [if_pos hpos]
    simp only [List.sum_append, List.sum_cons, List.sum_nil]
    rw [hrec, hexact, getLastD_cons_cons]
    simp only [List.headI]
    ring

/-- The `headI` of a nonempty list is a member. -/
theorem headI_mem_of_ne_nil {α : Type} [Inhabited α] :
    ∀ (l : List α), l ≠ [] → l.headI ∈ l
  | [], h => absurd rfl h
  | x :: t, _ => by simp [List.headI]

/-- Counterexample to claim C6 as stated: a surviving event's beat may exceed
the total length (the RomanText beat cursor `b<number>` is unbounded, and the
short-event filter keeps an overshooting event whose gap to its pre-filter
successor is large enough), and then the note durations sum past the
document's `totalBeats`.  Concretely, events at beats 0, 5 and 8 with total
length 4 and the default minimum duration 0.25 survive the short filter as
beats 0 and 5; the computed durations are `[4, 1]`, summing to 5, while the
emitted `totalBeats` is 4. -/
theorem noteDurations_sum_counterexample :
    dropShortEvents 4 (1 / 4)
        [⟨0, 1, "I", ⟨"C", "major"⟩⟩, ⟨5, 1, "V", ⟨"C", "major"⟩⟩,
         ⟨8, 1, "I", ⟨"C", "major"⟩⟩] =
      [⟨0, 1, "I", ⟨"C", "major"⟩⟩, ⟨5, 1, "V", ⟨"C", "major"⟩⟩] ∧
    noteDurations [⟨0, 1, "I", ⟨"C", "major"⟩⟩, ⟨5, 1, "V", ⟨"C", "major"⟩⟩] 4 =
      [4, 1] ∧
    (noteDurations [⟨0, 1, "I", ⟨"C", "major"⟩⟩, ⟨5, 1, "V", ⟨"C", "major"⟩⟩]
        4).sum = 5 ∧
    roundTo 6 (4 : ℚ) = 4 ∧
    (noteDurations [⟨0, 1, "I", ⟨"C", "major"⟩⟩, ⟨5, 1, "V", ⟨"C", "major"⟩⟩]
        4).sum ≠ roundTo 6 (4 : ℚ) := by
  have r4 : roundTo 6 (4 : ℚ) = 4 :=
    roundTo_6_exact (show (4 : ℚ) * 10 ^ 6 = ((4000000 : ℤ) : ℚ) by norm_num)
  have r5 : roundTo 6 (5 : ℚ) = 5 :=
    roundTo_6_exact (show (5 : ℚ) * 10 ^ 6 = ((5000000 : ℤ) : ℚ) by norm_num)
  have r1 : roundTo 6 (1 : ℚ) = 1 := roundTo_6_one
  have r0 : roundTo 6 (0 : ℚ) = 0 := roundTo_6_zero
  refine ⟨by norm_num [dropShortEvents, keepLongEnough], ?_, ?_, r4, ?_⟩ <;>
    (norm_num [noteDurations, eventBeats, sortedDistinct, insertDedup, durGaps,
      r0, r1, r4, r5]) <;> (simp <;> norm_num)

/-- Claim C6 (amended): for a non-empty filtered, deduplicated event list
whose first event is at beat 0, whose beats all lie within the total length,
and whose total length is at least 1, the note durations computed by the
builder sum exactly to the rounded total length — the value the document's
`totalBeats` field is set to.  The bound `beat ≤ total` is a genuine
restriction, not a builder invariant: without it the property fails, as the
counterexample above shows. -/
theorem noteDurations_sum_eq_totalBeats (l : List RawEvent) (total : ℚ)
    (hne : l ≠ []) (hhead : l.headI.beat = 0)
    (hnn : ∀ e ∈ l, 0 ≤ e.beat) (hub : ∀ e ∈ l, e.beat ≤ total)
    (htot : 1 ≤ total) :
    (noteDurations l total).sum = roundTo 6 total := by
  have h1le : (1 : ℚ) ≤ roundTo 6 total := by
    rw [← roundTo_6_one]
    exact roundTo_6_mono htot
  have hr6pos : (0 : ℚ) < roundTo 6 total := lt_of_lt_of_le one_pos h1le
  have hmemiff : ∀ b : ℚ, b ∈ eventBeats l total ↔
      b ∈ l.map (fun e => roundTo 6 e.beat) ++ [roundTo 6 total] :=
    fun b => mem_sortedDistinct _ b
  have hmicro : ∀ b ∈ eventBeats l total, ∃ k : ℤ, b * 10 ^ 6 = k := by
    intro b hb
    rcases List.mem_append.mp ((hmemiff b).mp hb) with h | h
    · obtain ⟨e, _, rfl⟩ := List.mem_map.mp h
      exact roundTo_6_isMicro e.beat
    · simp at h
      rw [h]
      exact roundTo_6_isMicro total
  have hpair : (eventBeats l total).Pairwise (· < ·) := pairwise_sortedDistinct _
  have h0 : (0 : ℚ) ∈ eventBeats l total := by
    have hm : roundTo 6 l.headI.beat ∈ eventBeats l total :=
      (hmemiff _).mpr (List.mem_append_left _
        (List.mem_map_of_mem _ (headI_mem_of_ne_nil l hne)))
    rwa [hhead, roundTo_6_zero] at hm
  have hrtmem : roundTo 6 total ∈ eventBeats l total :=
    (hmemiff _).mpr (List.mem_append_right _ (by simp))
  have hbub : ∀ b ∈ eventBeats l total, b ≤ roundTo 6 total := by
    intro b hb
    rcases List.mem_append.mp ((hmemiff b).mp hb) with h | h
    · obtain ⟨e, he, rfl⟩ := List.mem_map.mp h
      exact roundTo_6_mono (hub e he)
    · simp at h
      rw [h]
  have hbnn : ∀ b ∈ eventBeats l total, 0 ≤ b := by
    intro b hb
    rcases List.mem_append.mp ((hmemiff b).mp hb) with h | h
    · obtain ⟨e, he, rfl⟩ := List.mem_map.mp h
      have := roundTo_6_mono (hnn e he)
      rwa [roundTo_6_zero] at this
    · simp at h
      rw [h]
      exact hr6pos.le
  have hbne : eventBeats l total ≠ [] := by
    intro h
    rw [h] at h0
    simp at h0
  have hheadI : (eventBeats l total).headI = 0 :=
    le_antisymm (headI_le_of_pairwise _ hpair 0 h0)
      (hbnn _ (headI_mem_of_ne_nil _ hbne))
  have hlast : (eventBeats l total).getLastD 0 = roundTo 6 total :=
    le_antisymm (hbub _ (getLastD_mem _ hbne))
      (le_getLastD_of_pairwise _ hpair _ hrtmem)
  unfold noteDurations
  by_cases hds : durGaps (eventBeats l total) = []
  · rw [if_pos hds]
    simp
  · rw [if_neg hds]
    rw [sum_durGaps _ hmicro hpair, hlast, hheadI, sub_zero]

/-- Witness for C6 at a concrete two-event list. -/
theorem noteDurations_sum_eq_totalBeats_witness :
    (noteDurations [⟨0, 1, "I", ⟨"C", "major"⟩⟩, ⟨2, 1, "V", ⟨"C", "major"⟩⟩]
        4).sum = roundTo 6 4 ∧ roundTo 6 4 = 4 := by
  constructor
  · exact noteDurations_sum_eq_totalBeats
      [⟨0, 1, "I", ⟨"C", "major"⟩⟩, ⟨2, 1, "V", ⟨"C", "major"⟩⟩] 4
      (by simp) (by norm_num [List.headI])
      (by intro e he; simp at he; rcases he with h | h <;> norm_num [h])
      (by intro e he; simp at he; rcases he with h | h <;> norm_num [h])
      (by norm_num)
  · exact roundTo_6_exact (show (4 : ℚ) * 10 ^ 6 = ((4000000 : ℤ) : ℚ) by norm_num)

end TheMusic
